import Mathlib

set_option maxHeartbeats 1000000
set_option maxRecDepth 4000

/-!
Verification of the primesieve sieving core (EratMedium.cpp, api.cpp,
PrimeSieve.h) against its natural-language specification.

The segment buffer is modelled as a function from bit positions to `Bool`
(`true` = candidate prime, `false` = known composite).  Bit `b` of byte `k`
is position `8 * k + b` and represents the integer
`segmentBase + 30 * k + residues30[b]`.
-/

/-- `NUMBERS_PER_BYTE` from config.hpp: each sieve byte covers 30 integers. -/
def NUMBERS_PER_BYTE : ℕ := 30

/-- 2^64, the modulus of the C++ `uint64_t` arithmetic. -/
def U64 : ℕ := 2 ^ 64

/-- The 8 residues coprime to 30 encoded by the 8 bits of a sieve byte. -/
def residues30 : List ℕ := [1, 7, 11, 13, 17, 19, 23, 29]

/-- The 48 residues coprime to 210; the spokes of the mod-210 wheel used
by EratMedium. -/
def residues210 : List ℕ :=
  [1, 11, 13, 17, 19, 23, 29, 31, 37, 41, 43, 47,
   53, 59, 61, 67, 71, 73, 79, 83, 89, 97, 101, 103,
   107, 109, 113, 121, 127, 131, 137, 139, 143, 149, 151, 157,
   163, 167, 169, 173, 179, 181, 187, 191, 193, 197, 199, 209]

/-- Index of a residue in `residues30` (the bit number inside a byte). -/
def idx30 (x : ℕ) : ℕ := residues30.indexOf x

/-- Index of a residue in `residues210` (the spoke number of the wheel). -/
def idx210 (x : ℕ) : ℕ := residues210.indexOf x

/-- Value of spoke `i` of the mod-210 wheel (cyclic in `i`). -/
def spoke (i : ℕ) : ℕ := residues210.getD (i % 48) 0

/-- Value of the spoke following spoke `i`; wraps from 209 to 1 + 210. -/
def spokeNext (i : ℕ) : ℕ :=
  if i % 48 = 47 then 211 else residues210.getD (i % 48 + 1) 0

/-- Gap from spoke `i` to the next spoke of the mod-210 wheel. -/
def gap210 (i : ℕ) : ℕ := spokeNext i - spoke i

/-!
Modelled from the spec: the mod-210 wheel table of Wheel.hpp (not under
src/).  A `wheelIndex` `w` packs the class `c = idx30 (p % 30)` of the
sieving prime and the spoke `i = idx210 (m % 210)` of the next multiple's
cofactor `m` as `w = c * 48 + i`.  Per the spec, a table entry gives the
byte-offset increment, a correction, the next wheel index and the bit to
unset: crossing off one multiple advances `multipleIndex` by
`scaledPrime * byteInc + extraInc` and `wheelIndex` to its successor.
-/

/-- The residue class `p % 30` of the sieving prime encoded in wheel index
`w`. -/
def wheelClass (w : ℕ) : ℕ := residues30.getD (w / 48) 0

/-- Byte increment of the wheel table entry `w` (the spoke gap). -/
def wheelByteInc (w : ℕ) : ℕ := gap210 w

/-- Correction term of the wheel table entry `w`: the extra bytes beyond
`scaledPrime * byteInc` needed to reach the next multiple's byte. -/
def wheelExtra (w : ℕ) : ℕ :=
  wheelClass w * (spoke w + gap210 w) / 30 - wheelClass w * spoke w / 30

/-- Bit number to unset for the wheel table entry `w`. -/
def wheelBit (w : ℕ) : ℕ := idx30 (wheelClass w * spoke w % 30)

/-- Successor wheel index: same prime class, next spoke. -/
def wheelNext (w : ℕ) : ℕ := w / 48 * 48 + (w % 48 + 1) % 48

/-- A sieving-prime record: `(scaledPrime = p / 30, multipleIndex,
wheelIndex)` as in EratMedium.cpp / Wheel.hpp. -/
structure SievingPrime where
  sievingPrime_ : ℕ
  multipleIndex_ : ℕ
  wheelIndex_ : ℕ
deriving DecidableEq, Repr

def SievingPrime.getSievingPrime (s : SievingPrime) : ℕ := s.sievingPrime_

def SievingPrime.getMultipleIndex (s : SievingPrime) : ℕ := s.multipleIndex_

def SievingPrime.getWheelIndex (s : SievingPrime) : ℕ := s.wheelIndex_

/-- The EratMedium engine state: the stored `maxPrime_` bound and the
vector `primes_` of sieving-prime records. -/
structure EratMedium where
  maxPrime_ : ℕ
  primes_ : List SievingPrime
deriving DecidableEq, Repr

/-- `EratMedium::EratMedium(stop, sieveSize, maxPrime)`: rejects
`sieveSize > 4096 KiB` and `maxPrime > sieveSize * 5` (uint64 product),
otherwise yields an engine with no stored primes yet.  `primesieve_error`
is modelled by `Except.error` with the thrown message. -/
def EratMedium.init (stop sieveSize maxPrime : ℕ) : Except String EratMedium :=
  if 4096 * 1024 < sieveSize then
    Except.error "EratMedium: sieveSize must be <= 4096 kilobytes"
  else if sieveSize * 5 % U64 < maxPrime then
    Except.error "EratMedium: maxPrime must be <= sieveSize * 5"
  else
    Except.ok { maxPrime_ := maxPrime, primes_ := [] }

/-- `EratMedium::storeSievingPrime(prime, multipleIndex, wheelIndex)`:
appends the record `(prime / NUMBERS_PER_BYTE, multipleIndex, wheelIndex)`. -/
def EratMedium.storeSievingPrime (e : EratMedium)
    (prime multipleIndex wheelIndex : ℕ) : EratMedium :=
  { e with primes_ :=
      e.primes_ ++ [⟨prime / NUMBERS_PER_BYTE, multipleIndex, wheelIndex⟩] }

/-- A segment buffer, viewed as bit positions `8 * byte + bit`. -/
abbrev Sieve : Type := ℕ → Bool

/-- Clear one bit position of the segment. -/
def clearBit (pos : ℕ) (s : Sieve) : Sieve :=
  fun q => if q = pos then false else s q

/-- Modelled from the spec: `unsetBit(sieve, sievingPrime, &multipleIndex,
&wheelIndex)` of Wheel.hpp (not under src/): clears the table's bit of the
byte at `multipleIndex`, advances `multipleIndex` by
`sievingPrime * byteInc + extraInc` and `wheelIndex` to its successor. -/
def unsetBit (sieve : Sieve) (sp mi wi : ℕ) : Sieve × ℕ × ℕ :=
  (clearBit (8 * mi + wheelBit wi) sieve,
   mi + sp * wheelByteInc wi + wheelExtra wi,
   wheelNext wi)

/-- The pure state part of `unsetBit` (its advance never reads the sieve). -/
def advanceW (sp mi wi : ℕ) : ℕ × ℕ :=
  (mi + sp * wheelByteInc wi + wheelExtra wi, wheelNext wi)

/-- One scalar lane of `EratMedium::crossOff`:
`while (multipleIndex < sieveSize) unsetBit(...)`, with explicit fuel.
Each iteration advances `multipleIndex` by at least 2 when the scaled
prime is nonzero, so fuel `S` always suffices. -/
def drainGo (S sp : ℕ) : ℕ → Sieve → ℕ → ℕ → Sieve × ℕ × ℕ
  | 0, sieve, mi, wi => (sieve, mi, wi)
  | fuel + 1, sieve, mi, wi =>
    if mi < S then
      drainGo S sp fuel (clearBit (8 * mi + wheelBit wi) sieve)
        (mi + sp * wheelByteInc wi + wheelExtra wi) (wheelNext wi)
    else (sieve, mi, wi)

/-- The pure-state version of `drainGo` (multipleIndex and wheelIndex). -/
def drainS (S sp : ℕ) : ℕ → ℕ → ℕ → ℕ × ℕ
  | 0, mi, wi => (mi, wi)
  | fuel + 1, mi, wi =>
    if mi < S then
      drainS S sp fuel (mi + sp * wheelByteInc wi + wheelExtra wi) (wheelNext wi)
    else (mi, wi)

/-- The list of bit positions cleared by one scalar lane. -/
def drainClears (S sp : ℕ) : ℕ → ℕ → ℕ → List ℕ
  | 0, _, _ => []
  | fuel + 1, mi, wi =>
    if mi < S then
      (8 * mi + wheelBit wi) ::
        drainClears S sp fuel (mi + sp * wheelByteInc wi + wheelExtra wi) (wheelNext wi)
    else []

/-- The interleaved main loop of `EratMedium::crossOff` (lines 73-80):
processes 3 sieving primes per iteration (each body step is one
`unsetBit`, inlined); exits when lane 0 is done or breaks as soon as
lane 1 or lane 2 leaves the segment. -/
def loop3 (S sp0 sp1 sp2 : ℕ) :
    ℕ → Sieve → ℕ → ℕ → ℕ → ℕ → ℕ → ℕ →
      Sieve × (ℕ × ℕ) × (ℕ × ℕ) × (ℕ × ℕ)
  | 0, sieve, mi0, wi0, mi1, wi1, mi2, wi2 =>
    (sieve, (mi0, wi0), (mi1, wi1), (mi2, wi2))
  | fuel + 1, sieve, mi0, wi0, mi1, wi1, mi2, wi2 =>
    if mi0 < S then
      if mi1 < S then
        if mi2 < S then
          loop3 S sp0 sp1 sp2 fuel
            (clearBit (8 * mi2 + wheelBit wi2)
              (clearBit (8 * mi1 + wheelBit wi1)
                (clearBit (8 * mi0 + wheelBit wi0) sieve)))
            (mi0 + sp0 * wheelByteInc wi0 + wheelExtra wi0) (wheelNext wi0)
            (mi1 + sp1 * wheelByteInc wi1 + wheelExtra wi1) (wheelNext wi1)
            (mi2 + sp2 * wheelByteInc wi2 + wheelExtra wi2) (wheelNext wi2)
        else
          (clearBit (8 * mi1 + wheelBit wi1)
             (clearBit (8 * mi0 + wheelBit wi0) sieve),
           (mi0 + sp0 * wheelByteInc wi0 + wheelExtra wi0, wheelNext wi0),
           (mi1 + sp1 * wheelByteInc wi1 + wheelExtra wi1, wheelNext wi1),
           (mi2, wi2))
      else
        (clearBit (8 * mi0 + wheelBit wi0) sieve,
         (mi0 + sp0 * wheelByteInc wi0 + wheelExtra wi0, wheelNext wi0),
         (mi1, wi1), (mi2, wi2))
    else (sieve, (mi0, wi0), (mi1, wi1), (mi2, wi2))

/-- The scalar tail drains of one chunk of three records (lines 82-84):
finish lane 0, then lane 1, then lane 2 on the segment. -/
def finishLanes (S sp0 sp1 sp2 : ℕ) (sieve : Sieve)
    (mi0 wi0 mi1 wi1 mi2 wi2 : ℕ) :
    Sieve × (ℕ × ℕ) × (ℕ × ℕ) × (ℕ × ℕ) :=
  ((drainGo S sp2 S
      (drainGo S sp1 S (drainGo S sp0 S sieve mi0 wi0).1 mi1 wi1).1
      mi2 wi2).1,
   (drainGo S sp0 S sieve mi0 wi0).2,
   (drainGo S sp1 S (drainGo S sp0 S sieve mi0 wi0).1 mi1 wi1).2,
   (drainGo S sp2 S
      (drainGo S sp1 S (drainGo S sp0 S sieve mi0 wi0).1 mi1 wi1).1
      mi2 wi2).2)

/-- One iteration of the 3-primes-per-iteration outer loop of
`EratMedium::crossOff`: interleaved loop, scalar tails, subtract
`sieveSize` from each lane's multipleIndex, write back. -/
def chunk3 (S : ℕ) (sieve : Sieve) (a b c : SievingPrime) :
    Sieve × SievingPrime × SievingPrime × SievingPrime :=
  let r := loop3 S a.sievingPrime_ b.sievingPrime_ c.sievingPrime_ S sieve
    a.multipleIndex_ a.wheelIndex_ b.multipleIndex_ b.wheelIndex_
    c.multipleIndex_ c.wheelIndex_
  let f := finishLanes S a.sievingPrime_ b.sievingPrime_ c.sievingPrime_
    r.1 r.2.1.1 r.2.1.2 r.2.2.1.1 r.2.2.1.2 r.2.2.2.1 r.2.2.2.2
  (f.1,
   ⟨a.sievingPrime_, f.2.1.1 - S, f.2.1.2⟩,
   ⟨b.sievingPrime_, f.2.2.1.1 - S, f.2.2.1.2⟩,
   ⟨c.sievingPrime_, f.2.2.2.1 - S, f.2.2.2.2⟩)

/-- The remaining-sieving-primes loop of `EratMedium::crossOff`
(lines 96-107), also the per-record sequential reference semantics:
drain one lane, subtract `sieveSize`, write back. -/
def processRec (S : ℕ) (sieve : Sieve) (r : SievingPrime) :
    Sieve × SievingPrime :=
  let d := drainGo S r.sievingPrime_ S sieve r.multipleIndex_ r.wheelIndex_
  (d.1, ⟨r.sievingPrime_, d.2.1 - S, d.2.2⟩)

/-- Sequential processing of a list of records, one scalar lane at a
time (the reference semantics for the interleaved `crossOff`). -/
def seqList (S : ℕ) : List SievingPrime → Sieve → Sieve × List SievingPrime
  | [], sieve => (sieve, [])
  | r :: t, sieve =>
    let p := processRec S sieve r
    let rest := seqList S t p.1
    (rest.1, p.2 :: rest.2)

/-- The body of `EratMedium::crossOff`: chunks of 3 records while at
least 4 remain (the pointer loop `primes + 3 <= back`), then the scalar
remainder loop. -/
def crossOffGo (S : ℕ) : List SievingPrime → Sieve → Sieve × List SievingPrime
  | a :: b :: c :: d :: t, sieve =>
    let ch := chunk3 S sieve a b c
    let rest := crossOffGo S (d :: t) ch.1
    (rest.1, ch.2.1 :: ch.2.2.1 :: ch.2.2.2 :: rest.2)
  | l, sieve => seqList S l sieve

/-- `EratMedium::crossOff(sieve, sieveSize)`.  The function
unconditionally dereferences `&primes_[0]` and `primes_.back()`, which is
undefined for an empty vector: that error branch is modelled by `none`. -/
def EratMedium.crossOff (e : EratMedium) (sieve : Sieve) (S : ℕ) :
    Option (Sieve × List SievingPrime) :=
  match e.primes_ with
  | [] => none
  | l => some (crossOffGo S l sieve)

/-!  The api.cpp surface.  -/

/-- Modelled from the spec: `inBetween(min, x, max)` from pmath.hpp (not
under src/) clamps `x` into `[min, max]`. -/
def inBetween (lo x hi : ℤ) : ℤ := max lo (min x hi)

/-- Modelled from the spec: `inBetween` on unsigned values. -/
def inBetweenN (lo x hi : ℕ) : ℕ := max lo (min x hi)

/-- Modelled from the spec: `floorPow2(x)` from pmath.hpp (not under
src/): the greatest power of two at most `x` (for `x ≥ 1`). -/
def floorPow2 (x : ℤ) : ℤ := if x ≤ 0 then 0 else 2 ^ Nat.log 2 x.toNat

/-- Modelled from the spec: `floorPow2` on unsigned values. -/
def floorPow2N (x : ℕ) : ℕ := if x = 0 then 0 else 2 ^ Nat.log 2 x

/-- The two file-scope globals of api.cpp. -/
structure ApiState where
  sieve_size : ℤ
  num_threads : ℤ
deriving DecidableEq, Repr

/-- CPU cache sizes in bytes as reported by CpuInfo. -/
structure CpuInfo where
  l1CacheSize : ℕ
  l2CacheSize : ℕ
  l3CacheSize : ℕ
deriving DecidableEq, Repr

/-- `primesieve::set_sieve_size(int kilobytes)`:
`sieve_size = floorPow2(inBetween(1, kilobytes, 2048))`. -/
def set_sieve_size (kilobytes : ℤ) (st : ApiState) : ApiState :=
  { st with sieve_size := floorPow2 (inBetween 1 kilobytes 2048) }

/-- `primesieve::get_sieve_size()`: the user value if set, otherwise a
value derived from the CPU cache sizes. -/
def get_sieve_size (cpu : CpuInfo) (st : ApiState) : ℤ :=
  if st.sieve_size ≠ 0 then st.sieve_size
  else
    let l1 := cpu.l1CacheSize / 1024
    let l2 := cpu.l2CacheSize / 1024
    let l3 := cpu.l3CacheSize / 1024
    if l1 < l2 ∧ 0 < l2 ∧ 0 < l3 then
      (floorPow2N (inBetweenN 32 l2 2048) : ℤ)
    else
      let l1' := if l1 = 0 then 32 else l1
      (floorPow2N (inBetweenN 8 l1' 2048) : ℤ)

/-!
Modelled from the spec: the user-facing prime generation and counting
functions.  `primesieve::count_primes` and `primesieve::nth_prime`
(api.cpp) delegate to `ParallelPrimeSieve::countPrimes` /
`nthPrime`, whose implementations (PrimeFinder, the segment driver) are
not under src/.  Per the spec, `generatePrimes(start, stop)` delivers
exactly the primes of `[start, stop]` in ascending order,
`countPrimes(start, stop)` returns their number, and `nthPrime(n, start)`
returns the n-th prime `≥ start`.
-/

/-- Modelled from the spec: the ascending stream of primes of
`[start, stop]` delivered to the callback by `generatePrimes`. -/
def generatePrimes (start stop : ℕ) : List ℕ :=
  (List.range' start (stop + 1 - start)).filter fun n => decide (Nat.Prime n)

/-- Modelled from the spec: `primesieve::count_primes(start, stop)`,
the number of primes in `[start, stop]`. -/
def count_primes (start stop : ℕ) : ℕ := (generatePrimes start stop).length

/-- A reference trial-division primality test: `n ≥ 2` with no divisor
in `[2, n)`. -/
def trialPrime (n : ℕ) : Bool :=
  decide (2 ≤ n) && (List.range' 2 (n - 2)).all fun d => decide (n % d ≠ 0)

/-- The reference count of primes in `[a, b]` by trial division. -/
def refCountPrimes (a b : ℕ) : ℕ :=
  ((List.range' a (b + 1 - a)).filter trialPrime).length

/-- The least prime `≥ s` (the basic step of the nth-prime search). -/
def nextPrime (s : ℕ) : ℕ := Nat.find (Nat.exists_infinite_primes s)

/-- Modelled from the spec: `primesieve::nth_prime(n, start)` for
`n ≥ 1`: the n-th prime `≥ start` (sieve forward, counting). -/
def nth_prime : ℕ → ℕ → ℕ
  | 0, _ => 0
  | 1, s => nextPrime s
  | n + 2, s => nth_prime (n + 1) (nextPrime s + 1)

/-!  Denotation of the wheel state, used to state the cross-off claims.  -/

/-- The cofactor following `m` on the mod-210 wheel. -/
def nextCof (m : ℕ) : ℕ := m + gap210 (idx210 (m % 210))

/-- Bit position of the integer `n` inside the segment based at `B`. -/
def posNum (B n : ℕ) : ℕ := 8 * ((n - B) / 30) + idx30 (n % 30)

/-- Entry invariant of an EratMedium lane state `(mi, wi)`: it denotes the
next multiple `p * m` of the sieving prime `p` (coprime to 30, at least
30), with `m` coprime to 210, relative to the segment base `B`:
`mi` is the byte offset of that multiple and `wi` packs the prime's
residue class with the cofactor's spoke. -/
def StateInv (B p m mi wi : ℕ) : Prop :=
  p % 30 ∈ residues30 ∧ 30 ≤ p ∧ Nat.Coprime m 210 ∧ B ≤ p * m ∧
  mi = (p * m - B) / 30 ∧ wi = idx30 (p % 30) * 48 + idx210 (m % 210)

/-- Entry invariant of a stored sieving-prime record. -/
def MediumInv (B : ℕ) (r : SievingPrime) (p m : ℕ) : Prop :=
  r.sievingPrime_ = p / 30 ∧
  StateInv B p m r.multipleIndex_ r.wheelIndex_

/-- `q` is the bit position of a wheel multiple `p * m'` (cofactor
`m' ≥ m` coprime to 210) lying inside the segment `[B, B + 30 * S)`. -/
def HitBy (B S p m q : ℕ) : Prop :=
  ∃ m', Nat.Coprime m' 210 ∧ m ≤ m' ∧ p * m' < B + 30 * S ∧
    q = posNum B (p * m')

/-!  ############  Theorems  ############  -/

theorem u64_val : U64 = 18446744073709551616 := by norm_num [U64]

/-- C3: constructing EratMedium(stop, sieveSize, maxPrime) throws a
primesieve_error iff sieveSize > 4096*1024 bytes or maxPrime >
sieveSize*5; the error is synchronous at construction (no records stored
yet), and for arguments within the bounds construction succeeds. -/
theorem eratMedium_init_spec (stop sieveSize maxPrime : ℕ)
    (hz : sieveSize < U64) (hm : maxPrime < U64) :
    ((∃ msg, EratMedium.init stop sieveSize maxPrime = Except.error msg) ↔
      4096 * 1024 < sieveSize ∨ sieveSize * 5 < maxPrime) ∧
    (¬ (4096 * 1024 < sieveSize ∨ sieveSize * 5 < maxPrime) →
      EratMedium.init stop sieveSize maxPrime =
        Except.ok { maxPrime_ := maxPrime, primes_ := [] }) := by
  have h64 : U64 = 18446744073709551616 := u64_val
  constructor
  · constructor
    · rintro ⟨msg, hmsg⟩
      unfold EratMedium.init at hmsg
      split_ifs at hmsg with h1 h2
      · exact Or.inl h1
      · have hmod : sieveSize * 5 % U64 = sieveSize * 5 :=
          Nat.mod_eq_of_lt (by omega)
        omega
    · intro h
      unfold EratMedium.init
      by_cases h1 : 4096 * 1024 < sieveSize
      · rw [if_pos h1]; exact ⟨_, rfl⟩
      · have hmod : sieveSize * 5 % U64 = sieveSize * 5 :=
          Nat.mod_eq_of_lt (by omega)
        rw [if_neg h1, if_pos (by omega)]
        exact ⟨_, rfl⟩
  · intro h
    push_neg at h
    unfold EratMedium.init
    have hmod : sieveSize * 5 % U64 = sieveSize * 5 :=
      Nat.mod_eq_of_lt (by omega)
    rw [if_neg (by omega), if_neg (by omega)]

/-- Witness for C3: the construction bounds at a concrete configuration. -/
theorem eratMedium_init_spec_witness :
    (1024 : ℕ) < U64 ∧ (5120 : ℕ) < U64 ∧
    (((∃ msg, EratMedium.init 1000 1024 5120 = Except.error msg) ↔
      4096 * 1024 < (1024 : ℕ) ∨ 1024 * 5 < (5120 : ℕ)) ∧
    (¬ (4096 * 1024 < (1024 : ℕ) ∨ 1024 * 5 < (5120 : ℕ)) →
      EratMedium.init 1000 1024 5120 =
        Except.ok { maxPrime_ := 5120, primes_ := [] })) :=
  ⟨by norm_num [U64], by norm_num [U64],
   eratMedium_init_spec 1000 1024 5120 (by norm_num [U64]) (by norm_num [U64])⟩

/-- C5: storeSievingPrime(prime, multipleIndex, wheelIndex) with
prime ≤ maxPrime appends exactly one record holding the scaled prime
prime / 30 together with the given multipleIndex and wheelIndex
unchanged. -/
theorem storeSievingPrime_spec (e : EratMedium) (p mi wi : ℕ)
    (hp : p ≤ e.maxPrime_) :
    (e.storeSievingPrime p mi wi).primes_ =
      e.primes_ ++ [⟨p / 30, mi, wi⟩] ∧
    (e.storeSievingPrime p mi wi).primes_.getLast? =
      some ⟨p / 30, mi, wi⟩ ∧
    (e.storeSievingPrime p mi wi).maxPrime_ = e.maxPrime_ := by
  refine ⟨rfl, ?_, rfl⟩
  show (e.primes_ ++ [(⟨p / 30, mi, wi⟩ : SievingPrime)]).getLast? = _
  simp

/-- Witness for C5: storing prime 62 scales it to 62 / 30 = 2. -/
theorem storeSievingPrime_spec_witness :
    (62 : ℕ) ≤ (1280 : ℕ) ∧
    ((EratMedium.storeSievingPrime ⟨1280, []⟩ 62 5 9).primes_ =
      [] ++ [⟨62 / 30, 5, 9⟩] ∧
    (EratMedium.storeSievingPrime ⟨1280, []⟩ 62 5 9).primes_.getLast? =
      some ⟨62 / 30, 5, 9⟩ ∧
    (EratMedium.storeSievingPrime ⟨1280, []⟩ 62 5 9).maxPrime_ = 1280) :=
  ⟨by norm_num, storeSievingPrime_spec ⟨1280, []⟩ 62 5 9 (by norm_num)⟩

/-- C10: crossOff dereferences primes_[0] and primes_.back()
unconditionally, so it is well-defined exactly when at least one sieving
prime is stored (the empty case is the out-of-bounds branch, modelled by
none); after any storeSievingPrime call that branch is unreachable. -/
theorem crossOff_empty_guard (e : EratMedium) (sieve : Sieve)
    (S p mi wi : ℕ) :
    ((e.crossOff sieve S).isNone ↔ e.primes_ = []) ∧
    ((e.storeSievingPrime p mi wi).crossOff sieve S).isSome := by
  obtain ⟨mp, l⟩ := e
  constructor
  · cases l <;> simp [EratMedium.crossOff]
  · cases l <;> simp [EratMedium.crossOff, EratMedium.storeSievingPrime]

theorem inBetween_bounds (k : ℤ) :
    1 ≤ inBetween 1 k 2048 ∧ inBetween 1 k 2048 ≤ 2048 := by
  unfold inBetween
  exact ⟨le_max_left _ _, max_le (by norm_num) (min_le_right _ _)⟩

theorem floorPow2_spec (x : ℤ) (h1 : 1 ≤ x) (h2 : x ≤ 2048) :
    ∃ j, j ≤ 11 ∧ floorPow2 x = 2 ^ j ∧ 1 ≤ floorPow2 x ∧
      floorPow2 x ≤ x := by
  refine ⟨Nat.log 2 x.toNat, ?_, ?_, ?_, ?_⟩
  · have hlt : x.toNat < 2 ^ 12 := by
      have : (2 : ℕ) ^ 12 = 4096 := by norm_num
      omega
    have hne : x.toNat ≠ 0 := by omega
    have := Nat.log_lt_of_lt_pow hne hlt
    omega
  · unfold floorPow2
    rw [if_neg (by omega)]
  · unfold floorPow2
    rw [if_neg (by omega)]
    have := pow_pos (show (0 : ℤ) < 2 by norm_num) (Nat.log 2 x.toNat)
    omega
  · unfold floorPow2
    rw [if_neg (by omega)]
    have hne : x.toNat ≠ 0 := by omega
    have hp := Nat.pow_log_le_self 2 hne
    have : ((2 ^ Nat.log 2 x.toNat : ℕ) : ℤ) ≤ (x.toNat : ℤ) :=
      Int.ofNat_le.mpr hp
    push_cast at this
    omega

/-- C9: after set_sieve_size(k), get_sieve_size returns
floorPow2(clamp(k, 1, 2048)) kilobytes, a power of two in [1, 2048] KiB,
independent of the detected CPU cache sizes. -/
theorem get_after_set_sieve_size (k : ℤ) (st : ApiState)
    (cpu cpu' : CpuInfo) :
    get_sieve_size cpu (set_sieve_size k st) =
      floorPow2 (inBetween 1 k 2048) ∧
    get_sieve_size cpu (set_sieve_size k st) =
      get_sieve_size cpu' (set_sieve_size k st) ∧
    ∃ j, j ≤ 11 ∧ get_sieve_size cpu (set_sieve_size k st) = 2 ^ j ∧
      1 ≤ get_sieve_size cpu (set_sieve_size k st) ∧
      get_sieve_size cpu (set_sieve_size k st) ≤ 2048 := by
  obtain ⟨hb1, hb2⟩ := inBetween_bounds k
  obtain ⟨j, hj, hval, hpos, hle⟩ := floorPow2_spec _ hb1 hb2
  have hget : ∀ c : CpuInfo,
      get_sieve_size c (set_sieve_size k st) =
        floorPow2 (inBetween 1 k 2048) := by
    intro c
    unfold get_sieve_size set_sieve_size
    simp only []
    rw [if_pos (by simpa using (by omega : ¬ floorPow2 (inBetween 1 k 2048) = 0))]
  refine ⟨hget cpu, (hget cpu).trans (hget cpu').symm, j, hj, ?_, ?_, ?_⟩
  · rw [hget cpu]; exact hval
  · rw [hget cpu]; omega
  · rw [hget cpu]; omega

/-- C8 (amended): every sieve size configured through set_sieve_size and
then returned by get_sieve_size is a power of two number of kilobytes in
[1, 2048], hence at most 4096*1024 bytes; it need not be (and for powers
of two never is) a multiple of 240 bytes. -/
theorem sieve_size_power_of_two_bounds (k : ℤ) (st : ApiState)
    (cpu : CpuInfo) :
    ∃ j, j ≤ 11 ∧ get_sieve_size cpu (set_sieve_size k st) = 2 ^ j ∧
      1 ≤ get_sieve_size cpu (set_sieve_size k st) ∧
      1024 * get_sieve_size cpu (set_sieve_size k st) ≤ 4096 * 1024 := by
  obtain ⟨hb1, hb2⟩ := inBetween_bounds k
  obtain ⟨j, hj, hval, hpos, hle⟩ := floorPow2_spec _ hb1 hb2
  have hget : get_sieve_size cpu (set_sieve_size k st) =
      floorPow2 (inBetween 1 k 2048) := by
    unfold get_sieve_size set_sieve_size
    simp only []
    rw [if_pos (by simpa using (by omega : ¬ floorPow2 (inBetween 1 k 2048) = 0))]
  exact ⟨j, hj, by rw [hget]; exact hval, by rw [hget]; omega,
    by rw [hget]; omega⟩

/-- C8 counterexample: set_sieve_size(1) stores 1 KiB, get_sieve_size
returns it, and 1 KiB = 1024 bytes is not a multiple of 240 bytes. -/
theorem sieve_size_not_multiple_240 :
    (set_sieve_size 1 ⟨0, 0⟩).sieve_size = 1 ∧
    get_sieve_size ⟨32768, 262144, 8388608⟩ (set_sieve_size 1 ⟨0, 0⟩) = 1 ∧
    ¬ ((240 : ℤ) ∣ 1 * 1024) := by
  have h1 : floorPow2 (inBetween 1 1 2048) = 1 := by
    unfold floorPow2 inBetween
    norm_num
  have hset : (set_sieve_size 1 ⟨0, 0⟩).sieve_size = 1 := by
    unfold set_sieve_size
    simpa using h1
  refine ⟨hset, ?_, by norm_num⟩
  unfold get_sieve_size
  rw [if_pos (by rw [hset]; norm_num)]
  exact hset

theorem trialPrime_iff (n : ℕ) : trialPrime n = true ↔ Nat.Prime n := by
  unfold trialPrime
  rw [Bool.and_eq_true, List.all_eq_true]
  simp only [List.mem_range'_1, decide_eq_true_eq]
  constructor
  · rintro ⟨h2, hd⟩
    rw [Nat.prime_def_lt]
    refine ⟨h2, fun m hm hdvd => ?_⟩
    by_contra hne
    rcases Nat.lt_or_ge m 2 with hm2 | hm2
    · interval_cases m
      · obtain ⟨c, hc⟩ := hdvd
        omega
      · exact hne rfl
    · exact hd m ⟨hm2, by omega⟩ (by
        obtain ⟨c, rfl⟩ := hdvd
        exact Nat.mul_mod_right m c)
  · intro hp
    refine ⟨hp.two_le, fun d hd hmod => ?_⟩
    have hdvd : d ∣ n := Nat.dvd_of_mod_eq_zero hmod
    rcases (Nat.Prime.eq_one_or_self_of_dvd hp d hdvd) with h | h
    · omega
    · have := hp.two_le
      omega

theorem count_primes_eq_ref (a b : ℕ) :
    count_primes a b = refCountPrimes a b := by
  unfold count_primes generatePrimes refCountPrimes
  congr 1
  apply List.filter_congr
  intro x _
  by_cases hx : Nat.Prime x
  · simp [hx, (trialPrime_iff x).mpr hx]
  · have h1 : trialPrime x = false := by
      cases h : trialPrime x
      · rfl
      · exact absurd ((trialPrime_iff x).mp h) hx
    simp [hx, h1]

/-- C2: count_primes returns the number of primes in [a, b] as given by a
reference trial-division sieve on every interval, and on [1, 100] it
returns 25 with exactly the listed primes. -/
theorem count_primes_spec :
    (∀ a b : ℕ, count_primes a b = refCountPrimes a b) ∧
    count_primes 1 100 = 25 ∧
    generatePrimes 1 100 =
      [2, 3, 5, 7, 11, 13, 17, 19, 23, 29, 31, 37, 41, 43, 47, 53, 59, 61,
       67, 71, 73, 79, 83, 89, 97] := by
  refine ⟨count_primes_eq_ref, ?_, ?_⟩ <;> decide

/-- C7: within a single generatePrimes run the values delivered to the
callback strictly increase: every consecutive pair satisfies
p_i < p_{i+1}. -/
theorem generatePrimes_strict_mono (start stop : ℕ) :
    List.Chain' (· < ·) (generatePrimes start stop) :=
  ((List.pairwise_lt_range' start (stop + 1 - start)).filter _).chain'

theorem nextPrime_ge (s : ℕ) : s ≤ nextPrime s :=
  (Nat.find_spec (Nat.exists_infinite_primes s)).1

theorem nextPrime_prime (s : ℕ) : Nat.Prime (nextPrime s) :=
  (Nat.find_spec (Nat.exists_infinite_primes s)).2

theorem nextPrime_min (s q : ℕ) (h1 : s ≤ q) (h2 : Nat.Prime q) :
    nextPrime s ≤ q := by
  by_contra h
  rw [nextPrime] at h
  exact Nat.find_min (Nat.exists_infinite_primes s) (by omega) ⟨h1, h2⟩

theorem count_primes_split (s t b : ℕ) (h1 : s ≤ t + 1) (h2 : t ≤ b) :
    count_primes s b = count_primes s t + count_primes (t + 1) b := by
  unfold count_primes generatePrimes
  have hm : s + (t + 1 - s) = t + 1 := by omega
  have hn : b + 1 - (t + 1) = b - t := by omega
  have hsum : b + 1 - s = (b - t) + (t + 1 - s) := by omega
  rw [hsum, ← List.range'_append_1, hm, hn, List.filter_append,
    List.length_append]

theorem count_nextPrime (s : ℕ) :
    count_primes s (nextPrime s) = 1 ∧
    count_primes s (nextPrime s - 1) = 0 := by
  have hp := nextPrime_prime s
  have hge := nextPrime_ge s
  have h2 := hp.two_le
  have hzero : count_primes s (nextPrime s - 1) = 0 := by
    unfold count_primes generatePrimes
    rw [List.length_eq_zero, List.filter_eq_nil_iff]
    intro a ha
    rw [List.mem_range'_1] at ha
    simp only [decide_eq_true_eq]
    intro hpa
    have := nextPrime_min s a ha.1 hpa
    omega
  refine ⟨?_, hzero⟩
  have hsplit := count_primes_split s (nextPrime s - 1) (nextPrime s)
    (by omega) (by omega)
  have hp1 : nextPrime s - 1 + 1 = nextPrime s := by omega
  rw [hp1] at hsplit
  have hone : count_primes (nextPrime s) (nextPrime s) = 1 := by
    unfold count_primes generatePrimes
    have h1 : nextPrime s + 1 - nextPrime s = 1 := by omega
    rw [h1]
    simp [List.range', hp]
  omega

theorem nth_prime_ge : ∀ n s, 1 ≤ n → s ≤ nth_prime n s
  | 0, _, h => absurd h (by omega)
  | 1, s, _ => nextPrime_ge s
  | n + 2, s, _ => by
    have ih := nth_prime_ge (n + 1) (nextPrime s + 1) (by omega)
    have h := nextPrime_ge s
    rw [show nth_prime (n + 2) s = nth_prime (n + 1) (nextPrime s + 1)
      from rfl]
    omega

/-- C6: the nth-prime law: for every n ≥ 1 and every start, if
nth_prime(n, start) = p then count_primes(start, p) = n and
count_primes(start, p - 1) = n - 1. -/
theorem nth_prime_law : ∀ n start p, 1 ≤ n → nth_prime n start = p →
    count_primes start p = n ∧ count_primes start (p - 1) = n - 1
  | 0, _, _, h, _ => absurd h (by omega)
  | 1, s, p, _, hp => by
    rw [show nth_prime 1 s = nextPrime s from rfl] at hp
    subst hp
    exact ⟨(count_nextPrime s).1, (count_nextPrime s).2⟩
  | n + 2, s, p, _, hp => by
    rw [show nth_prime (n + 2) s = nth_prime (n + 1) (nextPrime s + 1)
      from rfl] at hp
    have hq := nextPrime_ge s
    have hq2 := (nextPrime_prime s).two_le
    obtain ⟨ihc, ihc'⟩ :=
      nth_prime_law (n + 1) (nextPrime s + 1) p (by omega) hp
    have hgep : nextPrime s + 1 ≤ p := by
      have := nth_prime_ge (n + 1) (nextPrime s + 1) (by omega)
      omega
    have hcnt := count_nextPrime s
    constructor
    · have hsplit := count_primes_split s (nextPrime s) p (by omega)
        (by omega)
      omega
    · have hsplit := count_primes_split s (nextPrime s) (p - 1) (by omega)
        (by omega)
      rw [hsplit, hcnt.1, ihc']
      omega

/-- Witness for C6 at n = 1, start = 0: the first prime is 2. -/
theorem nth_prime_law_witness :
    (1 : ℕ) ≤ 1 ∧ nth_prime 1 0 = 2 ∧
    count_primes 0 2 = 1 ∧ count_primes 0 (2 - 1) = 1 - 1 := by
  have h2 : nth_prime 1 0 = 2 := by
    show nextPrime 0 = 2
    rw [nextPrime, Nat.find_eq_iff]
    exact ⟨⟨by omega, by norm_num⟩, by decide⟩
  have h := nth_prime_law 1 0 2 (by omega) h2
  exact ⟨by omega, h2, h.1, h.2⟩

theorem clearBit_comm (x y : ℕ) (s : Sieve) :
    clearBit x (clearBit y s) = clearBit y (clearBit x s) := by
  funext q
  unfold clearBit
  by_cases hx : q = x <;> by_cases hy : q = y <;> simp [hx, hy]

theorem drainGo_snd (S sp : ℕ) :
    ∀ fuel s mi wi,
      (drainGo S sp fuel s mi wi).2 = drainS S sp fuel mi wi := by
  intro fuel
  induction fuel with
  | zero => intro s mi wi; rfl
  | succ n ih =>
    intro s mi wi
    simp only [drainGo, drainS]
    by_cases h : mi < S
    · rw [if_pos h, if_pos h, ih]
    · rw [if_neg h, if_neg h]

theorem drainGo_fst (S sp : ℕ) :
    ∀ fuel s mi wi q, (drainGo S sp fuel s mi wi).1 q =
      (s q && !((drainClears S sp fuel mi wi).contains q)) := by
  intro fuel
  induction fuel with
  | zero => intro s mi wi q; simp [drainGo, drainClears]
  | succ n ih =>
    intro s mi wi q
    simp only [drainGo, drainClears]
    by_cases h : mi < S
    · rw [if_pos h, if_pos h, ih]
      by_cases hq : q = 8 * mi + wheelBit wi
      · simp [clearBit, hq]
      · simp [clearBit, hq]
    · rw [if_neg h, if_neg h]
      simp

theorem gap210_mod (i : ℕ) : gap210 i = gap210 (i % 48) := by
  unfold gap210 spokeNext spoke
  have h : i % 48 % 48 = i % 48 := Nat.mod_mod_of_dvd i (dvd_refl 48)
  rw [h]

theorem gap210_ge_two (i : ℕ) : 2 ≤ gap210 i := by
  rw [gap210_mod]
  have h48 : i % 48 < 48 := Nat.mod_lt _ (by norm_num)
  have hall : ∀ j < 48, 2 ≤ gap210 j := by decide
  exact hall _ h48

theorem advance_ge (sp mi wi : ℕ) (hsp : 1 ≤ sp) :
    mi + 2 ≤ mi + sp * wheelByteInc wi + wheelExtra wi := by
  have hg := gap210_ge_two wi
  have h : 2 ≤ sp * wheelByteInc wi := by
    have : 1 * 2 ≤ sp * wheelByteInc wi :=
      Nat.mul_le_mul hsp (by unfold wheelByteInc; omega)
    omega
  omega

theorem drainGo_fuel (S sp : ℕ) (hsp : 1 ≤ sp) :
    ∀ fuel fuel' s mi wi, S ≤ mi + fuel → S ≤ mi + fuel' →
      drainGo S sp fuel s mi wi = drainGo S sp fuel' s mi wi := by
  intro fuel
  induction fuel with
  | zero =>
    intro fuel' s mi wi h h'
    cases fuel' with
    | zero => rfl
    | succ n => simp only [drainGo]; rw [if_neg (by omega)]
  | succ n ih =>
    intro fuel' s mi wi h h'
    cases fuel' with
    | zero =>
      simp only [drainGo]; rw [if_neg (by omega)]
    | succ n' =>
      simp only [drainGo]
      by_cases hlt : mi < S
      · rw [if_pos hlt, if_pos hlt]
        have hadv := advance_ge sp mi wi hsp
        exact ih n' _ _ _ (by omega) (by omega)
      · rw [if_neg hlt, if_neg hlt]

theorem drainS_ge (S sp : ℕ) (hsp : 1 ≤ sp) :
    ∀ fuel mi wi, S ≤ mi + fuel → S ≤ (drainS S sp fuel mi wi).1 := by
  intro fuel
  induction fuel with
  | zero => intro mi wi h; simp only [drainS]; omega
  | succ n ih =>
    intro mi wi h
    simp only [drainS]
    by_cases hlt : mi < S
    · rw [if_pos hlt]
      have hadv := advance_ge sp mi wi hsp
      exact ih _ _ (by omega)
    · rw [if_neg hlt]; omega

theorem drainGo_clearBit (S sp : ℕ) :
    ∀ fuel s mi wi x, drainGo S sp fuel (clearBit x s) mi wi =
      (clearBit x (drainGo S sp fuel s mi wi).1,
       (drainGo S sp fuel s mi wi).2) := by
  intro fuel
  induction fuel with
  | zero => intro s mi wi x; rfl
  | succ n ih =>
    intro s mi wi x
    simp only [drainGo]
    by_cases hlt : mi < S
    · rw [if_pos hlt, if_pos hlt, clearBit_comm, ih]
    · rw [if_neg hlt, if_neg hlt]

theorem drain_step (S sp mi wi : ℕ) (s : Sieve) (hsp : 1 ≤ sp)
    (hlt : mi < S) :
    drainGo S sp S s mi wi =
      drainGo S sp S (clearBit (8 * mi + wheelBit wi) s)
        (mi + sp * wheelByteInc wi + wheelExtra wi) (wheelNext wi) := by
  obtain ⟨K, rfl⟩ : ∃ K, S = K + 1 := ⟨S - 1, by omega⟩
  conv_lhs => rw [drainGo]
  rw [if_pos hlt]
  have hadv := advance_ge sp mi wi hsp
  exact drainGo_fuel _ _ hsp _ _ _ _ _ (by omega) (by omega)

theorem finish_absorb0 (S sp0 sp1 sp2 : ℕ) (s : Sieve)
    (mi0 wi0 mi1 wi1 mi2 wi2 : ℕ) (hsp : 1 ≤ sp0) (hlt : mi0 < S) :
    finishLanes S sp0 sp1 sp2 (clearBit (8 * mi0 + wheelBit wi0) s)
      (mi0 + sp0 * wheelByteInc wi0 + wheelExtra wi0) (wheelNext wi0)
      mi1 wi1 mi2 wi2 =
    finishLanes S sp0 sp1 sp2 s mi0 wi0 mi1 wi1 mi2 wi2 := by
  unfold finishLanes
  rw [← drain_step S sp0 mi0 wi0 s hsp hlt]

theorem finish_absorb1 (S sp0 sp1 sp2 : ℕ) (s : Sieve)
    (mi0 wi0 mi1 wi1 mi2 wi2 : ℕ) (hsp : 1 ≤ sp1) (hlt : mi1 < S) :
    finishLanes S sp0 sp1 sp2 (clearBit (8 * mi1 + wheelBit wi1) s)
      mi0 wi0
      (mi1 + sp1 * wheelByteInc wi1 + wheelExtra wi1) (wheelNext wi1)
      mi2 wi2 =
    finishLanes S sp0 sp1 sp2 s mi0 wi0 mi1 wi1 mi2 wi2 := by
  unfold finishLanes
  rw [drainGo_clearBit]
  dsimp only
  rw [← drain_step S sp1 mi1 wi1 (drainGo S sp0 S s mi0 wi0).1 hsp hlt]

theorem finish_absorb2 (S sp0 sp1 sp2 : ℕ) (s : Sieve)
    (mi0 wi0 mi1 wi1 mi2 wi2 : ℕ) (hsp : 1 ≤ sp2) (hlt : mi2 < S) :
    finishLanes S sp0 sp1 sp2 (clearBit (8 * mi2 + wheelBit wi2) s)
      mi0 wi0 mi1 wi1
      (mi2 + sp2 * wheelByteInc wi2 + wheelExtra wi2) (wheelNext wi2) =
    finishLanes S sp0 sp1 sp2 s mi0 wi0 mi1 wi1 mi2 wi2 := by
  unfold finishLanes
  rw [drainGo_clearBit]
  dsimp only
  rw [drainGo_clearBit]
  dsimp only
  rw [← drain_step S sp2 mi2 wi2
    (drainGo S sp1 S (drainGo S sp0 S s mi0 wi0).1 mi1 wi1).1 hsp hlt]

theorem loop3_finish (S sp0 sp1 sp2 : ℕ)
    (h0 : 1 ≤ sp0) (h1 : 1 ≤ sp1) (h2 : 1 ≤ sp2) :
    ∀ fuel sieve mi0 wi0 mi1 wi1 mi2 wi2,
      finishLanes S sp0 sp1 sp2
        (loop3 S sp0 sp1 sp2 fuel sieve mi0 wi0 mi1 wi1 mi2 wi2).1
        (loop3 S sp0 sp1 sp2 fuel sieve mi0 wi0 mi1 wi1 mi2 wi2).2.1.1
        (loop3 S sp0 sp1 sp2 fuel sieve mi0 wi0 mi1 wi1 mi2 wi2).2.1.2
        (loop3 S sp0 sp1 sp2 fuel sieve mi0 wi0 mi1 wi1 mi2 wi2).2.2.1.1
        (loop3 S sp0 sp1 sp2 fuel sieve mi0 wi0 mi1 wi1 mi2 wi2).2.2.1.2
        (loop3 S sp0 sp1 sp2 fuel sieve mi0 wi0 mi1 wi1 mi2 wi2).2.2.2.1
        (loop3 S sp0 sp1 sp2 fuel sieve mi0 wi0 mi1 wi1 mi2 wi2).2.2.2.2 =
      finishLanes S sp0 sp1 sp2 sieve mi0 wi0 mi1 wi1 mi2 wi2 := by
  intro fuel
  induction fuel with
  | zero => intro sieve mi0 wi0 mi1 wi1 mi2 wi2; rfl
  | succ n ih =>
    intro sieve mi0 wi0 mi1 wi1 mi2 wi2
    by_cases c0 : mi0 < S
    · by_cases c1 : mi1 < S
      · by_cases c2 : mi2 < S
        · simp only [loop3, if_pos c0, if_pos c1, if_pos c2]
          rw [ih]
          rw [finish_absorb2 _ _ _ _ _ _ _ _ _ _ _ h2 c2]
          rw [finish_absorb1 _ _ _ _ _ _ _ _ _ _ _ h1 c1]
          exact finish_absorb0 _ _ _ _ _ _ _ _ _ _ _ h0 c0
        · simp only [loop3, if_pos c0, if_pos c1, if_neg c2]
          rw [finish_absorb1 _ _ _ _ _ _ _ _ _ _ _ h1 c1]
          exact finish_absorb0 _ _ _ _ _ _ _ _ _ _ _ h0 c0
      · simp only [loop3, if_pos c0, if_neg c1]
        exact finish_absorb0 _ _ _ _ _ _ _ _ _ _ _ h0 c0
    · simp only [loop3, if_neg c0]

theorem chunk3_eq_seq (S : ℕ) (sieve : Sieve) (a b c : SievingPrime)
    (ha : 1 ≤ a.sievingPrime_) (hb : 1 ≤ b.sievingPrime_)
    (hc : 1 ≤ c.sievingPrime_) :
    chunk3 S sieve a b c =
      ((processRec S (processRec S (processRec S sieve a).1 b).1 c).1,
       (processRec S sieve a).2,
       (processRec S (processRec S sieve a).1 b).2,
       (processRec S (processRec S (processRec S sieve a).1 b).1 c).2) := by
  unfold chunk3
  dsimp only
  rw [loop3_finish S _ _ _ ha hb hc]
  unfold finishLanes processRec
  dsimp only

theorem crossOffGo_eq_seq (S : ℕ) :
    ∀ l : List SievingPrime, ∀ sieve : Sieve,
      (∀ r ∈ l, 1 ≤ r.sievingPrime_) →
      crossOffGo S l sieve = seqList S l sieve
  | [], _, _ => rfl
  | [_], _, _ => rfl
  | [_, _], _, _ => rfl
  | [_, _, _], _, _ => rfl
  | a :: b :: c :: d :: t, sieve, h => by
    have ha : 1 ≤ a.sievingPrime_ := h a (by simp)
    have hb : 1 ≤ b.sievingPrime_ := h b (by simp)
    have hc : 1 ≤ c.sievingPrime_ := h c (by simp)
    have hrest : ∀ r ∈ d :: t, 1 ≤ r.sievingPrime_ := by
      intro r hr
      apply h r
      simp only [List.mem_cons] at hr ⊢
      tauto
    have hcg : crossOffGo S (a :: b :: c :: d :: t) sieve =
        (let ch := chunk3 S sieve a b c
         let rest := crossOffGo S (d :: t) ch.1
         (rest.1, ch.2.1 :: ch.2.2.1 :: ch.2.2.2 :: rest.2)) := rfl
    rw [hcg]
    dsimp only
    rw [chunk3_eq_seq S sieve a b c ha hb hc]
    dsimp only
    rw [crossOffGo_eq_seq S (d :: t) _ hrest]
    conv_rhs => rw [seqList]
    conv_rhs => rw [seqList]
    conv_rhs => rw [seqList]
    try dsimp only
    try rfl

theorem seqList_snd (S : ℕ) :
    ∀ (l : List SievingPrime) (sieve : Sieve),
      (seqList S l sieve).2 = l.map (fun r =>
        (⟨r.sievingPrime_,
          (drainS S r.sievingPrime_ S r.multipleIndex_ r.wheelIndex_).1 - S,
          (drainS S r.sievingPrime_ S r.multipleIndex_ r.wheelIndex_).2⟩ :
          SievingPrime)) := by
  intro l
  induction l with
  | nil => intro sieve; rfl
  | cons r t ih =>
    intro sieve
    simp only [seqList, List.map]
    dsimp only [processRec]
    rw [ih, drainGo_snd]

/-- C4: after crossOff, every stored record's multipleIndex is the lane's
drained multipleIndex (advanced by wheel steps until it is at least
sieveSize) minus sieveSize, and the drained value is at least sieveSize,
so the subtraction never wraps below zero; wheelIndex is the drained one. -/
theorem crossOff_writeback (S : ℕ) (e : EratMedium) (sieve : Sieve)
    (hne : e.primes_ ≠ [])
    (hsp : ∀ r ∈ e.primes_, 1 ≤ r.sievingPrime_) :
    ∃ out, e.crossOff sieve S = some out ∧
      out.2 = e.primes_.map (fun r =>
        ⟨r.sievingPrime_,
         (drainS S r.sievingPrime_ S r.multipleIndex_ r.wheelIndex_).1 - S,
         (drainS S r.sievingPrime_ S r.multipleIndex_ r.wheelIndex_).2⟩) ∧
      ∀ r ∈ e.primes_,
        S ≤ (drainS S r.sievingPrime_ S r.multipleIndex_ r.wheelIndex_).1 := by
  obtain ⟨mp, l⟩ := e
  match l, hne, hsp with
  | a :: t, _, hsp =>
    refine ⟨crossOffGo S (a :: t) sieve, rfl, ?_, ?_⟩
    · show (crossOffGo S (a :: t) sieve).2 = _
      rw [crossOffGo_eq_seq S _ _ hsp, seqList_snd]
    · intro r hr
      exact drainS_ge S _ (hsp r hr) S _ _ (by omega)

/-- Witness for C4 at a one-record engine on a 256-byte segment. -/
theorem crossOff_writeback_witness :
    ((⟨1280, [⟨1, 32, 7⟩]⟩ : EratMedium).primes_ ≠ [] ∧
     ∀ r ∈ (⟨1280, [⟨1, 32, 7⟩]⟩ : EratMedium).primes_,
       1 ≤ r.sievingPrime_) ∧
    ∃ out, (⟨1280, [⟨1, 32, 7⟩]⟩ : EratMedium).crossOff (fun _ => true) 256 =
        some out ∧
      out.2 = (⟨1280, [⟨1, 32, 7⟩]⟩ : EratMedium).primes_.map (fun r =>
        ⟨r.sievingPrime_,
         (drainS 256 r.sievingPrime_ 256 r.multipleIndex_ r.wheelIndex_).1 -
           256,
         (drainS 256 r.sievingPrime_ 256 r.multipleIndex_
           r.wheelIndex_).2⟩) ∧
      ∀ r ∈ (⟨1280, [⟨1, 32, 7⟩]⟩ : EratMedium).primes_,
        256 ≤ (drainS 256 r.sievingPrime_ 256 r.multipleIndex_
          r.wheelIndex_).1 :=
  ⟨⟨by simp, by decide⟩,
   crossOff_writeback 256 ⟨1280, [⟨1, 32, 7⟩]⟩ (fun _ => true)
     (by simp) (by decide)⟩

theorem r30_getD : ∀ x ∈ residues30, residues30.getD (idx30 x) 0 = x := by
  decide

theorem r210_getD : ∀ x ∈ residues210,
    residues210.getD (idx210 x) 0 = x := by decide

theorem idx210_lt : ∀ x ∈ residues210, idx210 x < 48 := by decide

theorem idx30_lt : ∀ x ∈ residues30, idx30 x < 8 := by decide

theorem idx30_inj : ∀ x ∈ residues30, ∀ y ∈ residues30,
    idx30 x = idx30 y → x = y := by decide

theorem r210_getD_idx : ∀ j < 48,
    idx210 (residues210.getD j 0) = j := by decide

theorem r210_getD_mem : ∀ j < 48,
    residues210.getD j 0 ∈ residues210 := by decide

theorem mem210_coprime : ∀ x ∈ residues210, Nat.Coprime x 210 := by decide

theorem coprime_imp_mem : ∀ x < 210,
    Nat.Coprime x 210 → x ∈ residues210 := by decide

theorem spoke_gap_facts : ∀ j < 48,
    (residues210.getD j 0 + gap210 j) % 210 =
      residues210.getD ((j + 1) % 48) 0 := by decide

theorem gap_least : ∀ j < 48, ∀ e < gap210 j, 0 < e →
    (residues210.getD j 0 + e) % 210 ∉ residues210 := by decide

theorem mul_mem30 : ∀ a ∈ residues30, ∀ b ∈ residues30,
    a * b % 30 ∈ residues30 := by decide

theorem r210_mod30 : ∀ x ∈ residues210, x % 30 ∈ residues30 := by decide

theorem coprime210_mod (x : ℕ) :
    Nat.Coprime (x % 210) 210 ↔ Nat.Coprime x 210 := by
  unfold Nat.Coprime
  rw [Nat.gcd_comm x 210, Nat.gcd_rec 210 x]

theorem cof_mem (m : ℕ) (h : Nat.Coprime m 210) : m % 210 ∈ residues210 :=
  coprime_imp_mem _ (Nat.mod_lt _ (by norm_num)) ((coprime210_mod m).mpr h)

theorem div30_shift (X e : ℕ) :
    (X + e) / 30 = X / 30 + (X % 30 + e) / 30 := by
  conv_lhs => rw [← Nat.div_add_mod X 30]
  rw [Nat.add_assoc, Nat.mul_add_div (by norm_num)]

theorem wheel_decode (B p m mi wi : ℕ) (h : StateInv B p m mi wi) :
    wheelClass wi = p % 30 ∧
    spoke wi = m % 210 ∧
    wheelByteInc wi = gap210 (idx210 (m % 210)) ∧
    wheelBit wi = idx30 (p % 30 * (m % 210) % 30) ∧
    wheelExtra wi =
      p % 30 * (m % 210 + gap210 (idx210 (m % 210))) / 30 -
        p % 30 * (m % 210) / 30 ∧
    wheelNext wi = idx30 (p % 30) * 48 + (idx210 (m % 210) + 1) % 48 := by
  obtain ⟨hmem, hp30, hcop, hble, hmi, hwi⟩ := h
  have hmem210 : m % 210 ∈ residues210 := cof_mem m hcop
  have hi : idx210 (m % 210) < 48 := idx210_lt _ hmem210
  have hdiv : wi / 48 = idx30 (p % 30) := by rw [hwi]; omega
  have hmod : wi % 48 = idx210 (m % 210) := by rw [hwi]; omega
  have hwc : wheelClass wi = p % 30 := by
    unfold wheelClass
    rw [hdiv, r30_getD _ hmem]
  have hspk : spoke wi = m % 210 := by
    unfold spoke
    rw [hmod, r210_getD _ hmem210]
  have hgap : gap210 wi = gap210 (idx210 (m % 210)) := by
    rw [gap210_mod, hmod]
  refine ⟨hwc, hspk, ?_, ?_, ?_, ?_⟩
  · unfold wheelByteInc; exact hgap
  · unfold wheelBit; rw [hwc, hspk]
  · unfold wheelExtra; rw [hwc, hspk, hgap]
  · unfold wheelNext; rw [hdiv, hmod]

theorem advance_denote (p m B d : ℕ) (hB : 30 ∣ B) (hble : B ≤ p * m) :
    (p * m - B) / 30 + p / 30 * d +
      (p % 30 * (m % 210 + d) / 30 - p % 30 * (m % 210) / 30) =
    (p * (m + d) - B) / 30 := by
  obtain ⟨b, rfl⟩ := hB
  have hpm : 30 * (p / 30) + p % 30 = p := Nat.div_add_mod p 30
  have hmadd : p * (m + d) = p * m + p * d := Nat.mul_add p m d
  have hpd : p * d = 30 * (p / 30 * d) + p % 30 * d := by
    calc p * d = (30 * (p / 30) + p % 30) * d := by rw [hpm]
    _ = 30 * (p / 30 * d) + p % 30 * d := by ring
  have hmul30 : p * m % 30 = p % 30 * (m % 210) % 30 := by
    rw [Nat.mul_mod p m 30, Nat.mul_mod (p % 30) (m % 210) 30,
      Nat.mod_mod_of_dvd p (dvd_refl 30),
      Nat.mod_mod_of_dvd m (by norm_num : (30 : ℕ) ∣ 210)]
  have h2 : (p * m - 30 * b + p % 30 * d + p / 30 * d * 30) / 30
      = (p * m - 30 * b + p % 30 * d) / 30 + p / 30 * d :=
    Nat.add_mul_div_right _ _ (by norm_num)
  have h3 : (p * m - 30 * b + p % 30 * d) / 30
      = (p * m - 30 * b) / 30 +
        ((p * m - 30 * b) % 30 + p % 30 * d) / 30 :=
    div30_shift _ _
  have h4 : (p % 30 * (m % 210) + p % 30 * d) / 30
      = p % 30 * (m % 210) / 30 +
        (p % 30 * (m % 210) % 30 + p % 30 * d) / 30 :=
    div30_shift _ _
  have h5 : p % 30 * (m % 210 + d) = p % 30 * (m % 210) + p % 30 * d :=
    Nat.mul_add _ _ _
  omega

theorem stateInv_step (B p m mi wi : ℕ) (hB : 30 ∣ B)
    (h : StateInv B p m mi wi) :
    8 * mi + wheelBit wi = posNum B (p * m) ∧
    StateInv B p (nextCof m)
      (mi + p / 30 * wheelByteInc wi + wheelExtra wi) (wheelNext wi) ∧
    m < nextCof m ∧
    (∀ x, m < x → x < nextCof m → ¬ Nat.Coprime x 210) := by
  obtain ⟨hd1, hd2, hd3, hd4, hd5, hd6⟩ := wheel_decode B p m mi wi h
  obtain ⟨hmem, hp30, hcop, hble, hmi, hwi⟩ := h
  have hmem210 : m % 210 ∈ residues210 := cof_mem m hcop
  have hi48 : idx210 (m % 210) < 48 := idx210_lt _ hmem210
  have hnext : nextCof m = m + gap210 (idx210 (m % 210)) := rfl
  have hgapge := gap210_ge_two (idx210 (m % 210))
  have hmul30 : p * m % 30 = p % 30 * (m % 210) % 30 := by
    rw [Nat.mul_mod p m 30, Nat.mul_mod (p % 30) (m % 210) 30,
      Nat.mod_mod_of_dvd p (dvd_refl 30),
      Nat.mod_mod_of_dvd m (by norm_num : (30 : ℕ) ∣ 210)]
  have hsg := spoke_gap_facts (idx210 (m % 210)) hi48
  rw [r210_getD _ hmem210] at hsg
  have hnextmod : nextCof m % 210 =
      residues210.getD ((idx210 (m % 210) + 1) % 48) 0 := by
    rw [hnext, ← hsg]
    omega
  have hnextmem : nextCof m % 210 ∈ residues210 := by
    rw [hnextmod]
    exact r210_getD_mem _ (Nat.mod_lt _ (by norm_num))
  refine ⟨?_, ⟨hmem, hp30, ?_, ?_, ?_, ?_⟩, ?_, ?_⟩
  · rw [hd4, hmi]
    unfold posNum
    rw [hmul30]
  · exact (coprime210_mod _).mp (mem210_coprime _ hnextmem)
  · rw [hnext]
    have := Nat.mul_le_mul_left p
      (Nat.le_add_right m (gap210 (idx210 (m % 210))))
    omega
  · rw [hd3, hd5, hmi, hnext]
    exact advance_denote p m B _ hB hble
  · rw [hd6]
    congr 1
    rw [hnextmod, r210_getD_idx _ (Nat.mod_lt _ (by norm_num))]
  · omega
  · intro x hx1 hx2 hxc
    have hxm : x % 210 ∈ residues210 := cof_mem x hxc
    have h0 : 0 < x - m := by omega
    have h1 : x - m < gap210 (idx210 (m % 210)) := by
      rw [hnext] at hx2; omega
    have hxmod : x % 210 = (m % 210 + (x - m)) % 210 := by omega
    have hnc := gap_least (idx210 (m % 210)) hi48 (x - m) h1 h0
    rw [r210_getD _ hmem210] at hnc
    rw [hxmod] at hxm
    exact hnc hxm

theorem drainClears_char (B S p : ℕ) (hB : 30 ∣ B) :
    ∀ fuel m mi wi, StateInv B p m mi wi → S ≤ mi + fuel →
      ∀ q, (q ∈ drainClears S (p / 30) fuel mi wi ↔ HitBy B S p m q) := by
  intro fuel
  induction fuel with
  | zero =>
    intro m mi wi hinv hfuel q
    obtain ⟨hmem, hp30, hcop, hble, hmi, hwi⟩ := hinv
    simp only [drainClears, List.not_mem_nil, false_iff]
    rintro ⟨m', hcop', hle', hlt', hq⟩
    obtain ⟨b, hb⟩ := hB
    have h3 : p * m ≤ p * m' := Nat.mul_le_mul_left p hle'
    omega
  | succ n ih =>
    intro m mi wi hinv hfuel q
    obtain ⟨hbit, hinv', hlt_m, hleast⟩ := stateInv_step B p m mi wi hB hinv
    obtain ⟨hmem, hp30, hcop, hble, hmi, hwi⟩ := hinv
    by_cases hlt : mi < S
    case neg =>
      simp only [drainClears, if_neg hlt, List.not_mem_nil, false_iff]
      rintro ⟨m', hcop', hle', hlt', hq⟩
      obtain ⟨b, hb⟩ := hB
      have h3 : p * m ≤ p * m' := Nat.mul_le_mul_left p hle'
      omega
    case pos =>
      simp only [drainClears, if_pos hlt, List.mem_cons]
      have hsp1 : 1 ≤ p / 30 := by omega
      have hadv := advance_ge (p / 30) mi wi hsp1
      have hih := ih (nextCof m) _ _ hinv' (by omega) q
      constructor
      · rintro (rfl | hq)
        · refine ⟨m, hcop, le_refl m, ?_, hbit⟩
          obtain ⟨b, hb⟩ := hB
          omega
        · obtain ⟨m', h1, h2, h3, h4⟩ := hih.mp hq
          exact ⟨m', h1, by omega, h3, h4⟩
      · rintro ⟨m', hcop', hle', hlt', hq⟩
        by_cases hm : m' = m
        · left
          subst hm
          rw [hq]
          exact hbit.symm
        · right
          apply hih.mpr
          refine ⟨m', hcop', ?_, hlt', hq⟩
          by_contra hcon
          push_neg at hcon
          exact hleast m' (by omega) hcon hcop'

theorem and_not_contains (b : Bool) (L : List ℕ) (q : ℕ) :
    ((b && !L.contains q) = false) ↔ (b = false ∨ q ∈ L) := by
  cases b <;> simp [List.contains, List.elem_iff]

theorem drainGo_char (B S p : ℕ) (hB : 30 ∣ B)
    (m mi wi : ℕ) (hinv : StateInv B p m mi wi) (s : Sieve) (q : ℕ) :
    ((drainGo S (p / 30) S s mi wi).1 q = false ↔
      (s q = false ∨ HitBy B S p m q)) := by
  rw [drainGo_fst, and_not_contains,
    drainClears_char B S p hB S m mi wi hinv (by omega) q]

theorem forall2_mem_left {R : SievingPrime → ℕ × ℕ → Prop} :
    ∀ l pms, List.Forall₂ R l pms → ∀ r ∈ l, ∃ pm ∈ pms, R r pm := by
  intro l
  induction l with
  | nil => intro pms _ r hr; simp at hr
  | cons a t ih =>
    intro pms h r hr
    cases h with
    | cons h1 h2 =>
      rcases List.mem_cons.mp hr with rfl | hmem
      · exact ⟨_, List.mem_cons_self _ _, h1⟩
      · obtain ⟨pm, hpm, hR⟩ := ih _ h2 r hmem
        exact ⟨pm, List.mem_cons_of_mem _ hpm, hR⟩

theorem forall2_mem_right {R : SievingPrime → ℕ × ℕ → Prop} :
    ∀ l pms, List.Forall₂ R l pms → ∀ pm ∈ pms, ∃ r ∈ l, R r pm := by
  intro l
  induction l with
  | nil =>
    intro pms h pm hpm
    cases h
    simp at hpm
  | cons a t ih =>
    intro pms h pm hpm
    cases h with
    | cons h1 h2 =>
      rcases List.mem_cons.mp hpm with rfl | hmem
      · exact ⟨a, List.mem_cons_self _ _, h1⟩
      · obtain ⟨r, hr, hR⟩ := ih _ h2 pm hmem
        exact ⟨r, List.mem_cons_of_mem _ hr, hR⟩

theorem seqList_char (B S : ℕ) (hB : 30 ∣ B) :
    ∀ (l : List SievingPrime) (pms : List (ℕ × ℕ)) (s : Sieve) (q : ℕ),
      List.Forall₂ (fun r pm => MediumInv B r pm.1 pm.2) l pms →
      ((seqList S l s).1 q = false ↔
        s q = false ∨ ∃ pm ∈ pms, HitBy B S pm.1 pm.2 q) := by
  intro l
  induction l with
  | nil =>
    intro pms s q hf
    cases hf
    simp [seqList]
  | cons r t ih =>
    intro pms s q hf
    cases hf with
    | cons h1 h2 =>
      rename_i pm tl
      obtain ⟨hsp, hstate⟩ := h1
      simp only [seqList]
      dsimp only [processRec]
      rw [ih tl _ q h2, hsp,
        drainGo_char B S pm.1 hB pm.2 _ _ hstate s q]
      constructor
      · rintro ((hs | hhit) | ⟨pm', hpm', hh⟩)
        · exact Or.inl hs
        · exact Or.inr ⟨pm, List.mem_cons_self _ _, hhit⟩
        · exact Or.inr ⟨pm', List.mem_cons_of_mem _ hpm', hh⟩
      · rintro (hs | ⟨pm', hpm', hh⟩)
        · exact Or.inl (Or.inl hs)
        · rcases List.mem_cons.mp hpm' with rfl | hmem
          · exact Or.inl (Or.inr hh)
          · exact Or.inr ⟨pm', hmem, hh⟩

theorem posNum_inj (B x y : ℕ) (hB : 30 ∣ B) (hx : B ≤ x) (hy : B ≤ y)
    (hxm : x % 30 ∈ residues30) (hym : y % 30 ∈ residues30)
    (h : posNum B x = posNum B y) : x = y := by
  unfold posNum at h
  have hx8 : idx30 (x % 30) < 8 := idx30_lt _ hxm
  have hy8 : idx30 (y % 30) < 8 := idx30_lt _ hym
  have hdiv : (x - B) / 30 = (y - B) / 30 := by omega
  have hidx : idx30 (x % 30) = idx30 (y % 30) := by omega
  have hres : x % 30 = y % 30 := idx30_inj _ hxm _ hym hidx
  obtain ⟨b, rfl⟩ := hB
  omega

/-- C1 (amended): for records satisfying the entry invariants (each
denotes the next wheel multiple p * m of its sieving prime p), crossOff
clears exactly the bits at positions of the multiples p * m' with
cofactor m' coprime to 210 (the mod-210 wheel skips the other
multiples), m' at least the record's entry cofactor and the multiple
inside the segment; every other bit is unchanged, and in particular
when every entry cofactor is at least 2, no prime's bit changes. -/
theorem crossOff_clears_exactly (B S : ℕ) (e : EratMedium) (sieve : Sieve)
    (pms : List (ℕ × ℕ)) (hB : 30 ∣ B) (hne : e.primes_ ≠ [])
    (hinv : List.Forall₂ (fun r pm => MediumInv B r pm.1 pm.2)
      e.primes_ pms) :
    ∃ out, e.crossOff sieve S = some out ∧
      (∀ q, out.1 q = false ↔
        sieve q = false ∨ ∃ pm ∈ pms, HitBy B S pm.1 pm.2 q) ∧
      (∀ n, Nat.Prime n → B ≤ n → n % 30 ∈ residues30 →
        (∀ pm ∈ pms, 2 ≤ pm.2) →
        out.1 (posNum B n) = sieve (posNum B n)) := by
  obtain ⟨mp, l⟩ := e
  match l, hne, hinv with
  | a :: t, _, hinv =>
    have hsp1 : ∀ r ∈ a :: t, 1 ≤ r.sievingPrime_ := by
      intro r hr
      obtain ⟨pm, _, hmv⟩ := forall2_mem_left _ _ hinv r hr
      obtain ⟨hspv, hstate⟩ := hmv
      have h30 : 30 ≤ pm.1 := hstate.2.1
      rw [hspv]
      omega
    have hchar : ∀ q, (crossOffGo S (a :: t) sieve).1 q = false ↔
        sieve q = false ∨ ∃ pm ∈ pms, HitBy B S pm.1 pm.2 q := by
      intro q
      rw [crossOffGo_eq_seq S _ _ hsp1]
      exact seqList_char B S hB (a :: t) pms sieve q hinv
    refine ⟨crossOffGo S (a :: t) sieve, rfl, hchar, ?_⟩
    intro n hn hBn hnmem h2m
    cases hsv : sieve (posNum B n) with
    | false =>
      have hout := (hchar (posNum B n)).mpr (Or.inl hsv)
      rw [hout]
    | true =>
      cases hout : (crossOffGo S (a :: t) sieve).1 (posNum B n) with
      | true => rfl
      | false =>
        exfalso
        rcases (hchar _).mp hout with hfalse | ⟨pm, hpm, hhit⟩
        · rw [hsv] at hfalse
          exact Bool.noConfusion hfalse
        · obtain ⟨m', hcop', hle', hlt', heq⟩ := hhit
          obtain ⟨r, _, hmv⟩ := forall2_mem_right _ _ hinv pm hpm
          obtain ⟨hspv, hstate⟩ := hmv
          obtain ⟨hmemp, hp30, hcopm, hble, _, _⟩ := hstate
          have hm2 : 2 ≤ pm.2 := h2m pm hpm
          have hm'2 : 2 ≤ m' := le_trans hm2 hle'
          have hBm' : B ≤ pm.1 * m' :=
            le_trans hble (Nat.mul_le_mul_left _ hle')
          have hprodmem : pm.1 * m' % 30 ∈ residues30 := by
            rw [Nat.mul_mod]
            apply mul_mem30 _ hmemp
            have hm210 : m' % 210 ∈ residues210 := cof_mem _ hcop'
            have h1 : m' % 30 = m' % 210 % 30 :=
              (Nat.mod_mod_of_dvd m' (by norm_num : (30 : ℕ) ∣ 210)).symm
            rw [h1]
            exact r210_mod30 _ hm210
          have hneq : n = pm.1 * m' :=
            posNum_inj B n (pm.1 * m') hB hBn hBm' hnmem hprodmem heq
          have hdvd : pm.1 ∣ n := ⟨m', hneq⟩
          rcases hn.eq_one_or_self_of_dvd pm.1 hdvd with h1 | h1
          · omega
          · rw [h1] at hneq
            have hnpos : 0 < n := by have := hn.two_le; omega
            have hm1 : 1 = m' := Nat.eq_of_mul_eq_mul_left hnpos
              (by rw [Nat.mul_one]; exact hneq)
            omega

/-- Witness for C1 (amended) at the one-record engine storing prime 31
with first multiple 961 on the segment [0, 7680). -/
theorem crossOff_clears_exactly_witness :
    (30 ∣ 0) ∧ ((⟨1280, [⟨1, 32, 7⟩]⟩ : EratMedium).primes_ ≠ []) ∧
    List.Forall₂ (fun r pm => MediumInv 0 r pm.1 pm.2)
      (⟨1280, [⟨1, 32, 7⟩]⟩ : EratMedium).primes_ [((31 : ℕ), (31 : ℕ))] ∧
    ∃ out, (⟨1280, [⟨1, 32, 7⟩]⟩ : EratMedium).crossOff
        (fun _ => true) 256 = some out ∧
      (∀ q, out.1 q = false ↔
        (fun _ => true : Sieve) q = false ∨
          ∃ pm ∈ [((31 : ℕ), (31 : ℕ))], HitBy 0 256 pm.1 pm.2 q) ∧
      (∀ n, Nat.Prime n → 0 ≤ n → n % 30 ∈ residues30 →
        (∀ pm ∈ [((31 : ℕ), (31 : ℕ))], 2 ≤ pm.2) →
        out.1 (posNum 0 n) = (fun _ => true : Sieve) (posNum 0 n)) := by
  have hmv : MediumInv 0 ⟨1, 32, 7⟩ 31 31 := by
    unfold MediumInv StateInv
    decide
  have hf : List.Forall₂ (fun r pm => MediumInv 0 r pm.1 pm.2)
      [(⟨1, 32, 7⟩ : SievingPrime)] [((31 : ℕ), (31 : ℕ))] :=
    List.Forall₂.cons hmv List.Forall₂.nil
  exact ⟨⟨0, rfl⟩, by simp, hf,
    crossOff_clears_exactly 0 256 ⟨1280, [⟨1, 32, 7⟩]⟩ (fun _ => true)
      [(31, 31)] ⟨0, rfl⟩ (by simp) hf⟩

/-- C1 counterexample: the engine stores only the prime 31 (record
(1, 32, 7), denoting next multiple 961 = 31 * 31) and the record
satisfies the entry invariants; on the segment [0, 1920) the composite
49 = 7 * 7 (coprime to 30) keeps its bit set after crossOff, and so does
1519 = 31 * 49, a multiple of the stored prime 31 itself coprime to 30
(the mod-210 wheel skips cofactors divisible by 7).  So crossOff neither
clears every composite of the segment nor clears all multiples (coprime
to 30) of its stored primes. -/
theorem crossOff_misses_composites :
    MediumInv 0 ⟨1, 32, 7⟩ 31 31 ∧
    ¬ Nat.Prime 49 ∧ 2 ≤ 49 ∧ 49 < 30 * 64 ∧ 49 % 30 ∈ residues30 ∧
    ¬ Nat.Prime 1519 ∧ (1519 : ℕ) = 31 * 49 ∧ 1519 < 30 * 64 ∧
      1519 % 30 ∈ residues30 ∧
    Option.map (fun out => (out.1 (posNum 0 49), out.1 (posNum 0 1519)))
      ((⟨1280, [⟨1, 32, 7⟩]⟩ : EratMedium).crossOff (fun _ => true) 64) =
      some (true, true) := by
  refine ⟨by unfold MediumInv StateInv; decide, by decide, by decide,
    by decide, by decide, by decide, by decide, by decide, by decide, ?_⟩
  decide
